import Mathlib

/-!
Shallow embedding of `grapher.py` (Code-Grapher), a script that sweeps an
input register/memory location of a debugged binary over a range of values
and records an output location per value.  The embedding mirrors, from the
source:

* the range expansion `range(lower_bound, upper_bound, step)` used at
  line 107, together with the behaviour of the `range` builtin on
  degenerate bounds (no validation exists in the source);
* the location parsing of lines 33-41 (string surgery on the raw
  descriptor, modelled on `List Char`);
* the memory-injection commands of lines 85-88 (`hex(value)[2:]`, `w0`,
  `wB`), with an executable big-endian hex encoder/decoder;
* the command trace of `execute` (lines 64-103) as a list of events
  against the r2pipe session;
* the sweep aggregation (lines 62, 103, 106-107): one `points.append`
  per successful task, exceptions swallowed by `executor.map`;
* the reporter (lines 110-118): `sorted(points, key=...)` for printing
  and `zip(*points)` for plotting.
-/

/-! ## Range Expander (lines 42-51 and the `range` call at line 107) -/

/-- Length of the Python sequence `range(lo, hi, st)`.  For `st > 0` the
builtin produces `max 0 (ceil((hi-lo)/st))` elements; for `st < 0` it
counts down and produces `max 0 (ceil((lo-hi)/(-st)))` elements; `st = 0`
is rejected by the builtin (modelled in `expandRange`).  Lean `Int`
division with a positive divisor is floor division, as in Python. -/
def pythonRangeLen (lo hi st : Int) : Nat :=
  if 0 < st then ((hi - lo + st - 1) / st).toNat
  else if st < 0 then ((lo - hi - st - 1) / (-st)).toNat
  else 0

/-- The Python sequence `range(lo, hi, st)`: element `i` is `lo + st * i`. -/
def pythonRange (lo hi st : Int) : List Int :=
  (List.range (pythonRangeLen lo hi st)).map (fun i : Nat => lo + st * (i : Int))

/-- Range expansion as performed by the source at line 107.  The source has
no validation of its own; the only failure is the `ValueError` that the
`range` builtin raises when the step is zero.  Mirrors
`range(lower_bound, upper_bound, step)`. -/
def expandRange (lo hi st : Int) : Except String (List Int) :=
  if st = 0 then .error "ValueError: range() arg 3 must not be zero"
  else .ok (pythonRange lo hi st)

/-! ## Location Parser (lines 33-41) -/

/-- A parsed input/output descriptor: a bare register name or the inner
expression of the `m[...]` memory syntax. -/
inductive Location where
  | register (name : List Char)
  | memory (expr : List Char)
deriving DecidableEq

/-- `s.startswith("m[")` from lines 34 and 39. -/
def startsWithMem (s : List Char) : Bool :=
  match s with
  | 'm' :: '[' :: _ => true
  | _ => false

/-- `s[-1] == ']'` from lines 34 and 39. -/
def lastIsRBracket (s : List Char) : Bool :=
  s.getLast? == some ']'

/-- The classification of lines 33-41: if the descriptor starts with `m[`
and its last character is `]`, it is a memory location and the wrapper is
stripped (`s[2:-1]`); otherwise the whole string is kept as a register
name.  No error path exists in the source. -/
def parseLocation (s : List Char) : Location :=
  if startsWithMem s && lastIsRBracket s then
    .memory ((s.drop 2).dropLast)
  else
    .register s

/-! ## Hex encoding of the injected value (line 86: `hex(value)[2:]`) -/

/-- Lowercase hexadecimal digit character for `d < 16`, as produced by
Python `hex`: decimal digits below ten, then the letters a through f. -/
def hexDigitChar (d : Nat) : Char :=
  if d < 10 then Char.ofNat (Char.toNat '0' + d)
  else Char.ofNat (Char.toNat 'a' + (d - 10))

/-- Numeric value of a hexadecimal digit character. -/
def hexCharVal (c : Char) : Nat :=
  if c = '0' then 0 else if c = '1' then 1 else if c = '2' then 2
  else if c = '3' then 3 else if c = '4' then 4 else if c = '5' then 5
  else if c = '6' then 6 else if c = '7' then 7 else if c = '8' then 8
  else if c = '9' then 9 else if c = 'a' then 10 else if c = 'b' then 11
  else if c = 'c' then 12 else if c = 'd' then 13 else if c = 'e' then 14
  else if c = 'f' then 15 else 0

/-- Least-significant-first hex digits of `v`, with explicit fuel so the
recursion is structural.  `natHexAux fuel v` is correct whenever
`v ≤ fuel`. -/
def natHexAux : Nat → Nat → List Char
  | 0, _ => []
  | fuel + 1, v =>
      if v = 0 then [] else hexDigitChar (v % 16) :: natHexAux fuel (v / 16)

/-- `hex(v)[2:]` for a nonnegative `v`: the minimal big-endian lowercase
hex digit string of `v` (Python prints `hex(0)[2:] = "0"`). -/
def natHexDigits (v : Nat) : List Char :=
  if v = 0 then ['0'] else (natHexAux v v).reverse

/-- Big-endian interpretation of a hex digit string, i.e. the value the
debugger writes when given `wB 0x<digits>`. -/
def decodeHex (ds : List Char) : Nat :=
  ds.foldl (fun acc c => 16 * acc + hexCharVal c) 0

/-! ## Memory injection (lines 85-88) -/

/-- One r2 command issued by `execute` when the input is a memory
location.  `w0` zeroes `len` bytes at `addr` (the raw `--input-length`
string is passed through verbatim); `wB` writes the given big-endian hex
byte string at `addr`. -/
inductive MemWriteCmd where
  | w0 (lenStr : List Char) (addr : List Char)
  | wB (hexDigits : List Char) (addr : List Char)
deriving DecidableEq

/-- The commands emitted by lines 85-88 for a memory input: clear
`input_length` bytes, then write `hex(value)[2:]` at the address.  The
source performs no width check of any kind: the two commands are emitted
unconditionally, whatever the value and the configured length. -/
def memInjectCmds (value : Nat) (lenStr addr : List Char) : List MemWriteCmd :=
  [.w0 lenStr addr, .wB (natHexDigits value) addr]

/-! ## Debug Session Driver trace (`execute`, lines 64-103) -/

/-- Python `hex(value)[2:]` including the quirk for negative values
(`hex(-5)[2:] = "x5"`, because the prefix is `-0x`). -/
def pyHexTail (value : Int) : List Char :=
  if value < 0 then 'x' :: natHexDigits (-value).toNat
  else natHexDigits value.toNat

/-- The module-level configuration read by `execute`: the parsed CLI
state of lines 29-59 that the function closes over. -/
structure Config where
  filename : List Char
  start : List Char
  stop : List Char
  bruteforce : List Char
  bruteforceIsMem : Bool
  output : List Char
  outputIsMem : Bool
  input_file : List Char
  input_length : List Char
  output_length : List Char
  commands : List Char
  jump : Bool
deriving DecidableEq

/-- An event of one `execute` invocation against the r2pipe session:
the `r2pipe.open` call, one `r.cmd` string, or a session close/quit.
The source never emits `closeSession`; the constructor exists so that
its absence can be stated. -/
inductive SessionEvent where
  | openSession (filename : List Char)
  | cmd (c : List Char)
  | closeSession
deriving DecidableEq

/-- The ordered trace of session operations performed by `execute`
(lines 64-103) for one input value.  Every exit path of the Python
function — normal return or an exception raised part-way — performs a
prefix of this trace; no path performs anything outside it. -/
def executeTrace (c : Config) (value : Int) : List SessionEvent :=
  [.openSession c.filename]
  ++ (if c.input_file ≠ [] then
        [.cmd (('d' :: 'o' :: 'r' :: ' ' :: 's' :: 't' :: 'd' :: 'i' :: 'n' :: '=' :: []) ++ c.input_file)]
      else [])
  ++ [.cmd ('d' :: 'o' :: 'o' :: ';' :: 'd' :: 'b' :: ' ' :: c.stop)]
  ++ (if c.jump then
        [.cmd (('d' :: 'r' :: ' ' :: 'r' :: 'i' :: 'p' :: ' ' :: '=' :: ' ' :: c.start)),
         .cmd (('d' :: 'r' :: ' ' :: 'e' :: 'i' :: 'p' :: ' ' :: '=' :: ' ' :: c.start))]
      else
        [.cmd (('d' :: 'b' :: ' ' :: c.start) ++ (';' :: 'd' :: 'c' :: []))])
  ++ [.cmd c.commands]
  ++ (if c.bruteforceIsMem then
        [.cmd (('w' :: '0' :: ' ' :: c.input_length) ++ (' ' :: '@' :: c.bruteforce)),
         .cmd (('w' :: 'B' :: ' ' :: '0' :: 'x' :: pyHexTail value) ++ (' ' :: '@' :: c.bruteforce))]
      else
        [.cmd (('d' :: 'r' :: ' ' :: c.bruteforce) ++ (' ' :: '=' :: ' ' :: (toString value).toList))])
  ++ [.cmd ['d', 'c']]
  ++ (if c.outputIsMem then
        [.cmd (('p' :: 'v' :: c.output_length) ++ (' ' :: '@' :: c.output))]
      else
        [.cmd ('d' :: 'r' :: ' ' :: c.output)])

/-! ## Concurrent Sweep Orchestrator (lines 62, 103, 106-107) -/

/-- The point appended by one successful `execute(value)` call against a
deterministic per-value driver `f` (line 103: `points.append((value,
result))`). -/
def executePoint (f : Int → Int) (v : Int) : Int × Int := (v, f v)

/-- The contents of the shared `points` list after the pool drains, given
the order in which the workers completed their appends.  `list.append` is
a single atomic operation in the host runtime, so any interleaving of the
workers is some permutation of the dispatched values. -/
def sweepPoints (f : Int → Int) (completionOrder : List Int) : List (Int × Int) :=
  completionOrder.map (executePoint f)

/-- What one sweep leaves behind.  The source records nothing but the
`points` list: `executor.map` at line 107 discards its result iterator,
so an exception raised inside `execute` is swallowed by the pool and no
message of any kind is produced for it; the script always proceeds to
the reporting code at line 110. -/
structure SweepOutcome where
  points : List (Int × Int)
  warnings : List (List Char)
  completed : Bool
deriving DecidableEq

/-- The sweep of lines 106-107 against a fallible driver: `driver v =
none` models `execute(v)` raising (e.g. `BreakpointNotReachedError`), in
which case line 103 is never reached and no point is appended; `some p`
models a successful call appending `p`.  No warning is ever recorded and
the sweep always runs to completion. -/
def runSweep (driver : Int → Option (Int × Int)) (values : List Int) : SweepOutcome :=
  { points := values.filterMap driver
    warnings := []
    completed := true }

/-! ## Result Reporter / Plotter (lines 110-118) -/

/-- The comparison used by `sorted(points, key=lambda x: x[0])` at
line 111: ascending by input value. -/
def keyLE (a b : Int × Int) : Prop := a.1 ≤ b.1

instance : DecidableRel keyLE := fun a b => inferInstanceAs (Decidable (a.1 ≤ b.1))

instance : IsTotal (Int × Int) keyLE := ⟨fun a b => le_total a.1 b.1⟩

instance : IsTrans (Int × Int) keyLE := ⟨fun _ _ _ h1 h2 => le_trans h1 h2⟩

/-- The list printed at line 111: `sorted(points, key=lambda x: x[0])`.
Python `sorted` is a stable sort by the key; insertion sort is the same
stable sort, so the two agree on every input. -/
def printedPoints (pts : List (Int × Int)) : List (Int × Int) :=
  pts.insertionSort keyLE

/-- The parallel x/y sequences handed to `plt.scatter` (lines 115-118):
`xy = zip(*points)` splits the points list as it stands — not the sorted
copy made for printing. -/
def plotSeries (pts : List (Int × Int)) : List Int × List Int :=
  pts.unzip

/-! ## Range-string step parsing (lines 42-51) -/

/-- Value of a decimal digit character, `none` on anything else. -/
def digitVal (c : Char) : Option Nat :=
  if '0' ≤ c ∧ c ≤ '9' then some (c.toNat - '0'.toNat) else none

/-- Decimal reading of a nonempty all-digit string, `none` elsewhere. -/
def parseNatStr (cs : List Char) : Option Nat :=
  cs.foldl (fun acc c => acc.bind fun n => (digitVal c).map fun d => 10 * n + d)
    (if cs = [] then (none : Option Nat) else some 0)

/-- Python `int()` on a nonempty all-digit string (with optional leading
minus sign), `none` where `int()` would raise `ValueError`. -/
def parseIntStr (cs : List Char) : Option Int :=
  match cs with
  | '-' :: rest => (parseNatStr rest).map (fun n => -(n : Int))
  | _ => (parseNatStr cs).map (fun n => (n : Int))

/-- The step selection of lines 49-51, applied to the comma-split fields
of the textual range argument: `step = 1`, overridden by
`int(valueRange[2][:-1])` exactly when there are three fields. -/
def stepOfFields (fields : List (List Char)) : Option Int :=
  if fields.length = 3 then parseIntStr ((fields.getD 2 []).dropLast)
  else some 1

/-- The sweep sequence determined by the split range fields together with
the already-parsed bounds: the `range(lower_bound, upper_bound, step)`
call of line 107 with the step of lines 49-51. -/
def expandFromFields (lo hi : Int) (fields : List (List Char)) : Option (List Int) :=
  (stepOfFields fields).map (pythonRange lo hi)

/-! ## Helper lemmas -/

lemma hexCharVal_hexDigitChar : ∀ d < 16, hexCharVal (hexDigitChar d) = d := by
  decide

lemma natHexAux_decode : ∀ (fuel v : Nat), v ≤ fuel →
    (natHexAux fuel v).foldr (fun c acc => 16 * acc + hexCharVal c) 0 = v := by
  intro fuel
  induction fuel with
  | zero =>
      intro v hv
      interval_cases v
      rfl
  | succ n ih =>
      intro v hv
      match v with
      | 0 => rfl
      | w + 1 =>
          have hdiv : (w + 1) / 16 ≤ n := by
            have h1 : (w + 1) / 16 < w + 1 := Nat.div_lt_self (Nat.succ_pos w) (by omega)
            omega
          have hrec := ih ((w + 1) / 16) hdiv
          have hmod : hexCharVal (hexDigitChar ((w + 1) % 16)) = (w + 1) % 16 :=
            hexCharVal_hexDigitChar _ (Nat.mod_lt _ (by omega))
          have hunfold : natHexAux (n + 1) (w + 1)
              = hexDigitChar ((w + 1) % 16) :: natHexAux n ((w + 1) / 16) := by
            simp [natHexAux]
          rw [hunfold, List.foldr_cons, hrec, hmod]
          exact Nat.div_add_mod (w + 1) 16

lemma decodeHex_reverse (l : List Char) :
    decodeHex l.reverse = l.foldr (fun c acc => 16 * acc + hexCharVal c) 0 := by
  simp [decodeHex, List.foldl_reverse]

/-- Decoding the big-endian hex digits emitted for `v` gives back exactly
`v`: the `wB` command of line 88 writes the whole value, whatever the
configured byte width. -/
lemma decodeHex_natHexDigits (v : Nat) : decodeHex (natHexDigits v) = v := by
  by_cases hv : v = 0
  · subst hv
    decide
  · rw [natHexDigits, if_neg hv, decodeHex_reverse]
    exact natHexAux_decode v v le_rfl

lemma toNat_ediv_eq_zero {a b : Int} (hb : 0 < b) (h : a < b) : (a / b).toNat = 0 := by
  have h1 := Int.ediv_add_emod a b
  have h2 := Int.emod_nonneg a (ne_of_gt hb)
  rcases le_or_lt (a / b) 0 with hq | hq
  · exact Int.toNat_of_nonpos hq
  · exfalso
    have hq1 : (1 : Int) ≤ a / b := hq
    have hmul : b * 1 ≤ b * (a / b) := mul_le_mul_of_nonneg_left hq1 (le_of_lt hb)
    linarith

lemma pythonRange_empty_of_le {lo hi st : Int} (hst : 0 < st) (h : hi ≤ lo) :
    pythonRange lo hi st = [] := by
  have hlen : pythonRangeLen lo hi st = 0 := by
    unfold pythonRangeLen
    rw [if_pos hst]
    exact toNat_ediv_eq_zero hst (by linarith)
  simp [pythonRange, hlen]

lemma pythonRange_empty_of_neg {lo hi st : Int} (hst : st < 0) (h : lo ≤ hi) :
    pythonRange lo hi st = [] := by
  have hpos : (0 : Int) < -st := by linarith
  have hlen : pythonRangeLen lo hi st = 0 := by
    unfold pythonRangeLen
    rw [if_neg (by linarith), if_pos hst]
    exact toNat_ediv_eq_zero hpos (by linarith)
  simp [pythonRange, hlen]

/-! ## Claim theorems -/

/-- Claim C7: a descriptor that does not begin with the memory wrapper is
classified as a register with that exact name, and a descriptor of the
form m[expr] with a terminating bracket is classified as memory with the
wrapper stripped and expr kept verbatim. -/
theorem location_parser_classification :
    (∀ s : List Char, startsWithMem s = false → parseLocation s = .register s)
    ∧ (∀ e : List Char, parseLocation ('m' :: '[' :: (e ++ [']'])) = .memory e) := by
  constructor
  · intro s hs
    unfold parseLocation
    rw [hs]
    simp
  · intro e
    unfold parseLocation
    have h1 : startsWithMem ('m' :: '[' :: (e ++ [']'])) = true := rfl
    have h2 : lastIsRBracket ('m' :: '[' :: (e ++ [']'])) = true := by
      unfold lastIsRBracket
      have hconc : ('m' :: '[' :: (e ++ [']'])) = ('m' :: '[' :: e) ++ [']'] := by simp
      rw [hconc, List.getLast?_concat]
      rfl
    rw [h1, h2]
    simp only [Bool.and_self, if_pos]
    congr 1
    show (e ++ [']']).dropLast = e
    exact List.dropLast_concat

/-- Claim C7 witness: the concrete examples of the spec, via the general
theorem. -/
theorem location_parser_classification_witness :
    startsWithMem ['e', 'a', 'x'] = false
    ∧ parseLocation ['e', 'a', 'x'] = .register ['e', 'a', 'x']
    ∧ parseLocation ['m', '[', 'r', 'b', 'p', '-', '0', 'x', '8', ']']
        = .memory ['r', 'b', 'p', '-', '0', 'x', '8'] :=
  ⟨by decide,
   location_parser_classification.1 ['e', 'a', 'x'] (by decide),
   location_parser_classification.2 ['r', 'b', 'p', '-', '0', 'x', '8']⟩

/-- Claim C8 counterexample: the unterminated descriptor m[rbp-0x8 is not
rejected; lines 33-41 classify it as a register whose name is the whole
string, contradicting the claimed InvalidLocationError (which does not
exist in the source). -/
theorem unterminated_mem_classified_register :
    parseLocation ['m', '[', 'r', 'b', 'p', '-', '0', 'x', '8']
      = .register ['m', '[', 'r', 'b', 'p', '-', '0', 'x', '8'] := by decide

/-- Claim C8 amended: a descriptor that begins with the memory wrapper
but whose last character is not the terminating bracket raises no error
at all; it is silently classified as a register whose name is the entire
descriptor, m[ prefix included. -/
theorem unterminated_mem_silent_register (e : List Char)
    (h : ('m' :: '[' :: e).getLast? ≠ some ']') :
    parseLocation ('m' :: '[' :: e) = .register ('m' :: '[' :: e) := by
  unfold parseLocation
  have h2 : lastIsRBracket ('m' :: '[' :: e) = false := by
    unfold lastIsRBracket
    simpa using h
  rw [h2]
  simp

/-- Claim C8 amended-theorem witness at a concrete unterminated
descriptor. -/
theorem unterminated_mem_silent_register_witness :
    (['m', '[', 'r', 'b', 'x'] : List Char).getLast? ≠ some ']'
    ∧ parseLocation ['m', '[', 'r', 'b', 'x'] = .register ['m', '[', 'r', 'b', 'x'] :=
  ⟨by decide, unterminated_mem_silent_register ['r', 'b', 'x'] (by decide)⟩

/-- Claim C3 counterexample: with configured byte width 1 and value
256 = 2^8, the injection of lines 85-88 does not fail: the clear and
write commands are emitted unconditionally, and the emitted hex digits
encode 256 in full, so nothing is truncated and no width-configuration
error occurs. -/
theorem mem_width_overflow_not_failed :
    memInjectCmds 256 ['1'] ['r', 'b', 'p', '-', '0', 'x', '8']
      = [.w0 ['1'] ['r', 'b', 'p', '-', '0', 'x', '8'],
         .wB ['1', '0', '0'] ['r', 'b', 'p', '-', '0', 'x', '8']]
    ∧ decodeHex ['1', '0', '0'] = 256
    ∧ 2 ^ (8 * 1) ≤ 256 :=
  ⟨by decide, by decide, by decide⟩

/-- Claim C3 amended: for every value and configured width the memory
injection emits exactly the clear-then-write command pair with the full
big-endian hex encoding of the value: it neither fails nor truncates
(the effective written width grows with the value, as the CLI help text
documents). -/
theorem mem_inject_no_truncation (value : Nat) (lenStr addr : List Char) :
    memInjectCmds value lenStr addr
      = [.w0 lenStr addr, .wB (natHexDigits value) addr]
    ∧ decodeHex (natHexDigits value) = value :=
  ⟨rfl, decodeHex_natHexDigits value⟩

/-- Claim C2: every invocation of `execute` opens exactly one session,
and its trace contains no close/quit event whatsoever — so no exit path
(every exit path performs a prefix of the trace) ever closes the
session, contrary to the specified guaranteed release. -/
theorem session_never_closed (c : Config) (value : Int) :
    ((executeTrace c value).countP (fun e => match e with
        | .openSession _ => true
        | _ => false) = 1)
    ∧ SessionEvent.closeSession ∉ executeTrace c value := by
  constructor
  · unfold executeTrace
    split_ifs <;> simp [List.countP_append, List.countP_cons]
  · unfold executeTrace
    split_ifs <;> simp

/-- Claim C10: a two-field range specification takes step 1 (lines
49-51), and the sweep expands it to exactly the sequence of the
three-field form with explicit step 1. -/
theorem two_element_range_defaults_step_one (lo hi : Int) (f1 f2 : List Char) :
    stepOfFields [f1, f2] = some 1
    ∧ expandFromFields lo hi [f1, f2] = some (pythonRange lo hi 1)
    ∧ expandFromFields lo hi [f1, f2, ['1', ']']] = some (pythonRange lo hi 1) :=
  ⟨rfl, rfl, rfl⟩

/-- Claim C1: against a deterministic per-value driver, any two runs of
the sweep over the same expanded range — whatever the worker count, each
run completes its appends in some permutation of the dispatched values,
and `list.append` is atomic in the host runtime — leave `points` lists
that are permutations of each other, hence identical as sets: no point
is lost and none is duplicated. -/
theorem sweep_worker_count_irrelevant (f : Int → Int) (lo hi st : Int)
    (order1 order2 : List Int)
    (h1 : order1.Perm (pythonRange lo hi st))
    (h2 : order2.Perm (pythonRange lo hi st)) :
    (sweepPoints f order1).Perm (sweepPoints f order2)
    ∧ ∀ p : Int × Int, p ∈ sweepPoints f order1 ↔ p ∈ sweepPoints f order2 := by
  have hp : (sweepPoints f order1).Perm (sweepPoints f order2) :=
    (h1.trans h2.symm).map (executePoint f)
  exact ⟨hp, fun p => hp.mem_iff⟩

/-- Claim C1 witness: a serial completion order and a shuffled one over
range(0,4,1), with the driver doubling its input. -/
theorem sweep_worker_count_irrelevant_witness :
    ([0, 1, 2, 3] : List Int).Perm (pythonRange 0 4 1)
    ∧ ([3, 1, 0, 2] : List Int).Perm (pythonRange 0 4 1)
    ∧ (sweepPoints (fun v => 2 * v) [0, 1, 2, 3]).Perm
        (sweepPoints (fun v => 2 * v) [3, 1, 0, 2]) :=
  ⟨by decide, by decide,
   (sweep_worker_count_irrelevant (fun v => 2 * v) 0 4 1 [0, 1, 2, 3] [3, 1, 0, 2]
      (by decide) (by decide)).1⟩

/-- Claim C4 counterexample: with the driver failing exactly at input 5
over range(0,10,1), the sweep completes and every other point is
collected, but no warning or fault record of any kind is produced — the
failing value is silently omitted, because `executor.map` at line 107
swallows per-task exceptions and its result iterator is never consumed. -/
theorem per_value_failure_silent :
    runSweep (fun v => if v = 5 then none else some (v, 2 * v)) (pythonRange 0 10 1)
      = { points := [(0, 0), (1, 2), (2, 4), (3, 6), (4, 8),
                     (6, 12), (7, 14), (8, 16), (9, 18)],
          warnings := [],
          completed := true } := by decide

/-- Claim C4 amended: for every deterministic driver, failing value and
dispatched list, the sweep runs to completion and the points list holds
exactly the point of every non-failing value in dispatch order — but the
warning list is always empty: the failure is never surfaced. -/
theorem sweep_fault_isolation_silent (f : Int → Int) (bad : Int) (values : List Int) :
    (runSweep (fun v => if v = bad then none else some (v, f v)) values).points
      = (values.filter (fun v => v ≠ bad)).map (fun v => (v, f v))
    ∧ (runSweep (fun v => if v = bad then none else some (v, f v)) values).warnings = []
    ∧ (runSweep (fun v => if v = bad then none else some (v, f v)) values).completed = true := by
  refine ⟨?_, rfl, rfl⟩
  induction values with
  | nil => rfl
  | cons v vs ih =>
      simp only [runSweep] at ih ⊢
      by_cases hv : v = bad
      · simp [List.filterMap_cons, List.filter_cons, hv, ih]
      · simp [List.filterMap_cons, List.filter_cons, hv, ih]

/-- Claim C6 counterexample: a negative step, and lower ≥ upper with a
positive step, are not rejected: expansion succeeds with an empty
sequence and the sweep silently proceeds over nothing.  No
InvalidRangeError exists in the source. -/
theorem invalid_range_not_rejected :
    expandRange 0 10 (-1) = .ok [] ∧ expandRange 5 3 1 = .ok [] :=
  ⟨rfl, rfl⟩

/-- Claim C6 amended: the source performs no range validation and
defines no InvalidRangeError.  A zero step is the only failing case —
the ValueError of the `range` builtin, raised when the sweep is set up —
while a negative step or lower ≥ upper silently yields an empty sweep. -/
theorem range_validation_absent (lo hi st : Int) :
    (st = 0 → expandRange lo hi st = .error "ValueError: range() arg 3 must not be zero")
    ∧ (0 < st → hi ≤ lo → expandRange lo hi st = .ok [])
    ∧ (st < 0 → lo ≤ hi → expandRange lo hi st = .ok []) := by
  refine ⟨fun h => by simp [expandRange, h], fun hst hle => ?_, fun hst hle => ?_⟩
  · have h0 : ¬ st = 0 := by omega
    simp [expandRange, h0, pythonRange_empty_of_le hst hle]
  · have h0 : ¬ st = 0 := by omega
    simp [expandRange, h0, pythonRange_empty_of_neg hst hle]

/-- Claim C6 amended-theorem witness at concrete degenerate ranges. -/
theorem range_validation_absent_witness :
    expandRange 0 10 0 = .error "ValueError: range() arg 3 must not be zero"
    ∧ expandRange 7 2 3 = .ok []
    ∧ expandRange 0 9 (-2) = .ok [] :=
  ⟨(range_validation_absent 0 10 0).1 rfl,
   (range_validation_absent 7 2 3).2.1 (by decide) (by decide),
   (range_validation_absent 0 9 (-2)).2.2 (by decide) (by decide)⟩

/-- Claim C9 counterexample: the parallel sequences handed to the
plotting surface are split from the unsorted points list, not from the
sorted copy made for printing: on {(2,20),(1,10)} the two splits
differ. -/
theorem plot_uses_unsorted_points :
    plotSeries [(2, 20), (1, 10)]
      ≠ (printedPoints [(2, 20), (1, 10)]).unzip := by decide

/-- Claim C9 amended: the reporter sorts ascending by input value and
prints that sorted list, but the input/output sequences handed to
plotting are split from the points list in its original accumulation
order (line 115 reads `points`, not the sorted copy of line 111). -/
theorem reporter_sorts_print_only (pts : List (Int × Int)) :
    (printedPoints pts).Sorted keyLE
    ∧ (printedPoints pts).Perm pts
    ∧ plotSeries pts = pts.unzip :=
  ⟨List.sorted_insertionSort keyLE pts, List.perm_insertionSort keyLE pts, rfl⟩


lemma ceil_of_bounds {D st q : Int} (hst : 0 < st)
    (h1 : st * (q - 1) < D) (h2 : D ≤ st * q) :
    ⌈(D : ℚ) / (st : ℚ)⌉ = q := by
  rw [Int.ceil_eq_iff]
  have hstQ : (0 : ℚ) < (st : ℚ) := by exact_mod_cast hst
  constructor
  · rw [lt_div_iff₀ hstQ]
    have h1Q : ((st * (q - 1) : Int) : ℚ) < ((D : Int) : ℚ) := by exact_mod_cast h1
    push_cast at h1Q ⊢
    linarith [h1Q]
  · rw [div_le_iff₀ hstQ]
    have h2Q : ((D : Int) : ℚ) ≤ ((st * q : Int) : ℚ) := by exact_mod_cast h2
    push_cast at h2Q ⊢
    linarith [h2Q]

lemma pythonRange_length (lo hi st : Int) :
    (pythonRange lo hi st).length = pythonRangeLen lo hi st := by
  rw [pythonRange, List.length_map, List.length_range]

lemma pythonRange_getElem (lo hi st : Int) (i : Nat)
    (h : i < (pythonRange lo hi st).length) :
    (pythonRange lo hi st)[i] = lo + st * i := by
  simp only [pythonRange, List.getElem_map, List.getElem_range]

/-- Claim C5: for step > 0 and lower < upper, the expanded sequence
starts at lower, consecutive elements differ by exactly step and
strictly increase, every element is below upper, and the length is the
ceiling of (upper - lower) / step. -/
theorem range_expansion_spec (lo hi st : Int) (hst : 0 < st) (hlt : lo < hi) :
    (pythonRange lo hi st).head? = some lo
    ∧ (∀ i : Nat, ∀ h1 : i < (pythonRange lo hi st).length,
        ∀ h2 : i + 1 < (pythonRange lo hi st).length,
        (pythonRange lo hi st)[i + 1] = (pythonRange lo hi st)[i] + st
        ∧ (pythonRange lo hi st)[i] < (pythonRange lo hi st)[i + 1])
    ∧ (∀ x ∈ pythonRange lo hi st, x < hi)
    ∧ ((pythonRange lo hi st).length : Int) = ⌈((hi : ℚ) - (lo : ℚ)) / (st : ℚ)⌉ := by
  have hq : pythonRangeLen lo hi st = ((hi - lo + st - 1) / st).toNat := by
    unfold pythonRangeLen
    rw [if_pos hst]
  have hmod1 := Int.ediv_add_emod (hi - lo + st - 1) st
  have hmod2 := Int.emod_nonneg (hi - lo + st - 1) (ne_of_gt hst)
  have hmod3 := Int.emod_lt_of_pos (hi - lo + st - 1) hst
  have hA : st * ((hi - lo + st - 1) / st - 1) < hi - lo := by
    have e1 : st * ((hi - lo + st - 1) / st - 1)
        = st * ((hi - lo + st - 1) / st) - st := by ring
    rw [e1]
    linarith
  have hB : hi - lo ≤ st * ((hi - lo + st - 1) / st) := by linarith
  have hq1 : 1 ≤ (hi - lo + st - 1) / st := by
    by_contra hneg
    push_neg at hneg
    have hle0 : (hi - lo + st - 1) / st ≤ 0 := by omega
    have hmul : st * ((hi - lo + st - 1) / st) ≤ st * 0 :=
      mul_le_mul_of_nonneg_left hle0 (le_of_lt hst)
    simp only [mul_zero] at hmul
    linarith
  have hcast : (((hi - lo + st - 1) / st).toNat : Int) = (hi - lo + st - 1) / st :=
    Int.toNat_of_nonneg (by omega)
  refine ⟨?_, ?_, ?_, ?_⟩
  · obtain ⟨m, hm⟩ : ∃ m, pythonRangeLen lo hi st = m + 1 := by
      rw [hq]
      have h1n : 1 ≤ ((hi - lo + st - 1) / st).toNat := by omega
      exact ⟨((hi - lo + st - 1) / st).toNat - 1, by omega⟩
    rw [pythonRange, hm, List.range_succ_eq_map]
    simp
  · intro i hi1 hi2
    have e1 := pythonRange_getElem lo hi st i hi1
    have e2 := pythonRange_getElem lo hi st (i + 1) hi2
    rw [e1, e2]
    push_cast
    constructor
    · ring
    · nlinarith [hst]
  · intro x hx
    simp only [pythonRange, List.mem_map, List.mem_range] at hx
    obtain ⟨i, hilt, rfl⟩ := hx
    rw [hq] at hilt
    have hcmp : (i : Int) < (((hi - lo + st - 1) / st).toNat : Int) := by
      exact_mod_cast hilt
    rw [hcast] at hcmp
    have hiq : (i : Int) ≤ (hi - lo + st - 1) / st - 1 := by omega
    have hmono : st * (i : Int) ≤ st * ((hi - lo + st - 1) / st - 1) :=
      mul_le_mul_of_nonneg_left hiq (le_of_lt hst)
    linarith
  · rw [pythonRange_length, hq, hcast]
    have hbridge : ((hi : ℚ) - (lo : ℚ)) = (((hi - lo : Int)) : ℚ) := by
      push_cast
      ring
    rw [hbridge, ceil_of_bounds hst hA hB]

/-- Claim C5 witness: the expansion of range(0,10,3). -/
theorem range_expansion_spec_witness :
    (0 : Int) < 3 ∧ (0 : Int) < 10
    ∧ (pythonRange 0 10 3).head? = some 0
    ∧ ((pythonRange 0 10 3).length : Int) = ⌈((10 : ℚ) - (0 : ℚ)) / (3 : ℚ)⌉ :=
  ⟨by decide, by decide,
   (range_expansion_spec 0 10 3 (by decide) (by decide)).1,
   (range_expansion_spec 0 10 3 (by decide) (by decide)).2.2.2⟩
